import Mathlib

/-!
# Verification of the `rlwe` crate's modular-arithmetic and ring-element layer

Shallow embedding of `src/cyclotomic.rs` and `src/traits.rs`.

* A `ModularBigInt<C>` stores a single `BigInt` representant; we model it as an
  `Int` together with the characteristic `m : Nat` (the value of
  `C::to_biguint()`) passed explicitly.
* `Rem<BigUint> for ModularBigInt<C>` is `ModularBigInt.rem`, translated
  line by line; Rust's `%` on `BigInt` is truncated remainder, which is
  `Int.tmod`, and `m / 2` on `BigInt` agrees with `Int` division since `m ≥ 0`.
* `Element<R>` (a `GenericArray` of `n` coefficients) is modelled as a
  `List Int` of the coefficients' representants; the degree `n` and the
  characteristic `m` are passed explicitly.
* The unimplemented ring multiplication (`todo!()`, an unconditional panic)
  is modelled as an `Option`-valued function that always returns `none`.
-/

namespace Rlwe

/-- `Rem<BigUint> for ModularBigInt<C>` (src/cyclotomic.rs lines 91-114):
balanced reduction of the representant.  If the modulus is zero the value is
returned unchanged; otherwise `rep = x % m` (truncated remainder, as Rust's
`%` on `BigInt`), `right = m / 2`, `left = right - m`, and `rep` is shifted
by `±m` into the window `(left, right]`. -/
def ModularBigInt.rem (m : Nat) (x : Int) : Int :=
  if m = 0 then x
  else
    let mi : Int := (m : Int)
    let right : Int := mi / 2
    let left : Int := right - mi
    let rep : Int := Int.tmod x mi
    if rep ≤ left then rep + mi
    else if right < rep then rep - mi
    else rep

/-- `From<BigInt> for ModularBigInt<C>` (src/cyclotomic.rs lines 23-32):
construction reduces immediately. -/
def ModularBigInt.ofBigInt (m : Nat) (x : Int) : Int :=
  ModularBigInt.rem m x

/-- `Add`/`AddAssign for ModularBigInt<C>` (src/cyclotomic.rs lines 47-67):
exact integer sum of the representants followed by `% C::to_biguint()`. -/
def ModularBigInt.add (m : Nat) (a b : Int) : Int :=
  ModularBigInt.rem m (a + b)

/-- `SubAssign for ModularBigInt<C>` (src/cyclotomic.rs lines 69-77). -/
def ModularBigInt.sub (m : Nat) (a b : Int) : Int :=
  ModularBigInt.rem m (a - b)

/-- `Mul for ModularBigInt<C>` (src/cyclotomic.rs lines 79-89). -/
def ModularBigInt.mul (m : Nat) (a b : Int) : Int :=
  ModularBigInt.rem m (a * b)

/-- One iteration of the fold loop in `From<Vector> for Element<Cyclotomic>`
(src/cyclotomic.rs lines 156-162): if `⌊i/n⌋` is even the converted entry `i`
is added into slot `i % n` with `AddAssign` (which reduces), otherwise it is
subtracted with `SubAssign` (which reduces). -/
def foldStep (n m : Nat) (coordinates : List Int) (slice : List Int) (i : Nat) :
    List Int :=
  if i / n % 2 = 0 then
    slice.set (i % n)
      (ModularBigInt.add m (slice.getD (i % n) 0) (coordinates.getD i 0))
  else
    slice.set (i % n)
      (ModularBigInt.sub m (slice.getD (i % n) 0) (coordinates.getD i 0))

/-- `From<Vector> for Element<Cyclotomic<T, C>>` (src/cyclotomic.rs lines
137-169): each entry is converted through `From<BigInt>` (reducing it); if the
resulting list is no longer than the degree it is resized to length `n` with
zeros, otherwise the fold loop accumulates it into a zero-initialised slice of
length `n`. -/
def fromVector (n m : Nat) (p : List Int) : List Int :=
  let coordinates := p.map (ModularBigInt.ofBigInt m)
  if coordinates.length ≤ n then
    coordinates ++ List.replicate (n - coordinates.length) 0
  else
    (List.range coordinates.length).foldl (foldStep n m coordinates)
      (List.replicate n 0)

/-- `RlweRing::mul for Cyclotomic<T, C>` (src/cyclotomic.rs lines 132-134):
the body is `todo!()`, an unconditional panic; we model the panic as `none`. -/
def Cyclotomic.mul (_a _b : List Int) : Option (List Int) :=
  none

/-- `Add<&Element<R>> for Element<R>` (src/traits.rs lines 70-92): zip the two
coefficient arrays and add coefficient-wise with the coefficient type's `Add`. -/
def Element.add (m : Nat) (a b : List Int) : List Int :=
  List.zipWith (ModularBigInt.add m) a b

/-- `Element::hadamard` (src/traits.rs lines 94-114): zip the two coefficient
arrays and multiply coefficient-wise with the coefficient type's `Mul`. -/
def Element.hadamard (m : Nat) (a b : List Int) : List Int :=
  List.zipWith (ModularBigInt.mul m) a b

/-- `Element::at` (src/traits.rs lines 65-67): `&self.coefficients[i]`, which
panics when `i` is out of bounds; the panic is modelled as `none`. -/
def Element.atIndex (e : List Int) (i : Nat) : Option Int :=
  e[i]?

/-- Modelled from the spec: the reference fold of §4.2/§8, one iteration.  It
gathers the per-position partial sums as raw signed integer sums, with no
reduction after the individual additions. -/
def rawStep (n : Nat) (v : List Int) (slice : List Int) (i : Nat) : List Int :=
  if i / n % 2 = 0 then
    slice.set (i % n) (slice.getD (i % n) 0 + v.getD i 0)
  else
    slice.set (i % n) (slice.getD (i % n) 0 - v.getD i 0)

/-- Modelled from the spec: the reference conversion that accumulates
unreduced integer sums across the fold and applies the canonicalization pass
exactly once at the end of each accumulation. -/
def fromVectorSpec (n m : Nat) (p : List Int) : List Int :=
  if p.length ≤ n then
    (p.map (ModularBigInt.ofBigInt m)) ++ List.replicate (n - p.length) 0
  else
    ((List.range p.length).foldl (rawStep n p) (List.replicate n 0)).map
      (ModularBigInt.rem m)

/-- The signed contribution of index `i` to output position `p` in the fold:
`+v[i]` when `i % n = p` and `⌊i/n⌋` is even, `-v[i]` when `i % n = p` and
`⌊i/n⌋` is odd, `0` otherwise. -/
def signedTerm (n : Nat) (v : List Int) (p i : Nat) : Int :=
  if i % n = p then (if i / n % 2 = 0 then v.getD i 0 else -(v.getD i 0))
  else 0

/-- The raw signed sum accumulated at position `p` by the fold over the whole
vector. -/
def signedSum (n : Nat) (v : List Int) (p : Nat) : Int :=
  ∑ i in Finset.range v.length, signedTerm n v p i

/-! ## Basic facts about the balanced reduction -/

theorem tmod_congr (x m : Int) : Int.tmod x m % m = x % m := by
  conv_rhs => rw [← Int.tmod_add_tdiv x m]
  rw [Int.add_mul_emod_self_left]

theorem tmod_lower (a : Int) {b : Int} (hb : 0 < b) : -b < Int.tmod a b := by
  rcases a with m | m
  · have h0 : (0 : Int) ≤ Int.tmod (Int.ofNat m) b :=
      Int.tmod_nonneg b (Int.ofNat_nonneg m)
    omega
  · rcases b with n | n
    · simp only [Int.ofNat_eq_coe] at hb
      have hn : 0 < n := by exact_mod_cast hb
      have h : (m + 1) % n < n := Nat.mod_lt _ hn
      have e : Int.tmod (Int.negSucc m) (Int.ofNat n) =
          -Int.ofNat ((m + 1) % n) := rfl
      rw [e]
      simp only [Int.ofNat_eq_coe]
      omega
    · exact absurd hb (by simp)

theorem rem_range {m : Nat} (hm : 0 < m) (x : Int) :
    (m : Int) / 2 - m < ModularBigInt.rem m x ∧
      ModularBigInt.rem m x ≤ (m : Int) / 2 := by
  have hm0 : ¬ m = 0 := by omega
  have hmi : (0 : Int) < (m : Int) := by exact_mod_cast hm
  have h1 : Int.tmod x m < m := Int.tmod_lt_of_pos x hmi
  have h2 : -(m : Int) < Int.tmod x m := tmod_lower x hmi
  simp only [ModularBigInt.rem, hm0, if_false]
  split
  · omega
  · split <;> omega

theorem rem_congr (m : Nat) (x : Int) :
    ModularBigInt.rem m x % (m : Int) = x % (m : Int) := by
  by_cases hm : m = 0
  · subst hm; simp [ModularBigInt.rem]
  · have base := tmod_congr x (m : Int)
    have hself : ((m : Int)) % (m : Int) = 0 := Int.emod_self
    have hmm : ∀ y : Int, y % (m : Int) % (m : Int) = y % (m : Int) :=
      fun y => Int.emod_emod_of_dvd y dvd_rfl
    simp only [ModularBigInt.rem, hm, if_false]
    split
    · rw [Int.add_emod, hself, add_zero, hmm, base]
    · split
      · rw [Int.sub_emod, hself, sub_zero, hmm, base]
      · exact base

theorem interval_unique {m a b : Int} (ha1 : m / 2 - m < a) (ha2 : a ≤ m / 2)
    (hb1 : m / 2 - m < b) (hb2 : b ≤ m / 2)
    (hab : a % m = b % m) : a = b := by
  have hd : m ∣ b - a := Int.modEq_iff_dvd.mp hab
  have habs : |b - a| < m := by
    rw [abs_lt]; omega
  have := Int.eq_zero_of_abs_lt_dvd hd habs
  omega

theorem rem_eq_self {m : Nat} (hm : 0 < m) {x : Int}
    (h1 : (m : Int) / 2 - m < x) (h2 : x ≤ (m : Int) / 2) :
    ModularBigInt.rem m x = x :=
  interval_unique (rem_range hm x).1 (rem_range hm x).2 h1 h2 (rem_congr m x)

theorem rem_idem (m : Nat) (x : Int) :
    ModularBigInt.rem m (ModularBigInt.rem m x) = ModularBigInt.rem m x := by
  by_cases hm : m = 0
  · subst hm; simp [ModularBigInt.rem]
  · have hm' : 0 < m := Nat.pos_of_ne_zero hm
    exact rem_eq_self hm' (rem_range hm' x).1 (rem_range hm' x).2

theorem rem_zero (m : Nat) : ModularBigInt.rem m 0 = 0 := by
  by_cases hm : m = 0
  · subst hm; simp [ModularBigInt.rem]
  · have hm' : 0 < m := Nat.pos_of_ne_zero hm
    have hmi : (0 : Int) < (m : Int) := by exact_mod_cast hm'
    refine rem_eq_self hm' (by omega) (by omega)

theorem rem_congruent {m : Nat} (hm : 0 < m) {x y : Int}
    (h : x % (m : Int) = y % (m : Int)) :
    ModularBigInt.rem m x = ModularBigInt.rem m y :=
  interval_unique (rem_range hm x).1 (rem_range hm x).2 (rem_range hm y).1
    (rem_range hm y).2 ((rem_congr m x).trans (h.trans (rem_congr m y).symm))

theorem rem_add_rem (m : Nat) (a b : Int) :
    ModularBigInt.rem m (ModularBigInt.rem m a + ModularBigInt.rem m b) =
      ModularBigInt.rem m (a + b) := by
  by_cases hm : m = 0
  · subst hm; simp [ModularBigInt.rem]
  · refine rem_congruent (Nat.pos_of_ne_zero hm) ?_
    rw [Int.add_emod, rem_congr, rem_congr, ← Int.add_emod]

theorem rem_sub_rem (m : Nat) (a b : Int) :
    ModularBigInt.rem m (ModularBigInt.rem m a - ModularBigInt.rem m b) =
      ModularBigInt.rem m (a - b) := by
  by_cases hm : m = 0
  · subst hm; simp [ModularBigInt.rem]
  · refine rem_congruent (Nat.pos_of_ne_zero hm) ?_
    rw [Int.sub_emod, rem_congr, rem_congr, ← Int.sub_emod]

/-! ## List helper lemmas -/

theorem getD_set_self (l : List Int) {p : Nat} (a : Int) (h : p < l.length) :
    (l.set p a).getD p 0 = a := by
  rw [List.getD_eq_getElem?_getD, List.getElem?_set_self h]
  rfl

theorem getD_set_ne (l : List Int) {p q : Nat} (a : Int) (h : p ≠ q) :
    (l.set p a).getD q 0 = l.getD q 0 := by
  rw [List.getD_eq_getElem?_getD, List.getElem?_set_ne h,
    ← List.getD_eq_getElem?_getD]

theorem getD_map_rem (m : Nat) (l : List Int) (j : Nat) :
    (l.map (ModularBigInt.rem m)).getD j 0 =
      ModularBigInt.rem m (l.getD j 0) := by
  rw [List.getD_eq_getElem?_getD, List.getElem?_map,
    List.getD_eq_getElem?_getD]
  cases l[j]? with
  | none => simp [rem_zero]
  | some a => rfl

theorem getD_replicate_zero (n j : Nat) :
    (List.replicate n (0 : Int)).getD j 0 = 0 := by
  rw [List.getD_eq_getElem?_getD, List.getElem?_replicate]
  split <;> rfl

theorem foldl_length {f : List Int → Nat → List Int}
    (hf : ∀ s i, (f s i).length = s.length) :
    ∀ (l : List Nat) (s : List Int), (l.foldl f s).length = s.length
  | [], _ => rfl
  | i :: t, s => by
    rw [List.foldl_cons, foldl_length hf t (f s i), hf s i]

theorem foldStep_length (n m : Nat) (c s : List Int) (i : Nat) :
    (foldStep n m c s i).length = s.length := by
  unfold foldStep
  split <;> rw [List.length_set]

theorem rawStep_length (n : Nat) (v s : List Int) (i : Nat) :
    (rawStep n v s i).length = s.length := by
  unfold rawStep
  split <;> rw [List.length_set]

/-! ## The implemented fold refines the spec's deferred-reduction fold -/

theorem foldStep_map (n m : Nat) (v s : List Int) (i : Nat) :
    foldStep n m (v.map (ModularBigInt.ofBigInt m))
        (s.map (ModularBigInt.rem m)) i =
      (rawStep n v s i).map (ModularBigInt.rem m) := by
  unfold foldStep rawStep ModularBigInt.ofBigInt
  split
  · rw [getD_map_rem, getD_map_rem, ModularBigInt.add, rem_add_rem,
      List.map_set]
  · rw [getD_map_rem, getD_map_rem, ModularBigInt.sub, rem_sub_rem,
      List.map_set]

theorem foldl_foldStep_map (n m : Nat) (v : List Int) :
    ∀ (l : List Nat) (s : List Int),
      l.foldl (foldStep n m (v.map (ModularBigInt.ofBigInt m)))
          (s.map (ModularBigInt.rem m)) =
        (l.foldl (rawStep n v) s).map (ModularBigInt.rem m)
  | [], _ => rfl
  | i :: t, s => by
    rw [List.foldl_cons, List.foldl_cons, foldStep_map,
      foldl_foldStep_map n m v t (rawStep n v s i)]

theorem fromVector_eq_spec (n m : Nat) (v : List Int) :
    fromVector n m v = fromVectorSpec n m v := by
  unfold fromVector fromVectorSpec
  simp only [List.length_map]
  split
  · rfl
  · have hrep : (List.replicate n (0 : Int)).map (ModularBigInt.rem m) =
        List.replicate n (0 : Int) := by
      rw [List.map_replicate, rem_zero]
    calc (List.range v.length).foldl
          (foldStep n m (v.map (ModularBigInt.ofBigInt m)))
          (List.replicate n 0)
        = (List.range v.length).foldl
            (foldStep n m (v.map (ModularBigInt.ofBigInt m)))
            ((List.replicate n 0).map (ModularBigInt.rem m)) := by rw [hrep]
      _ = ((List.range v.length).foldl (rawStep n v)
            (List.replicate n 0)).map (ModularBigInt.rem m) :=
          foldl_foldStep_map n m v (List.range v.length) (List.replicate n 0)

/-! ## The raw fold computes the signed block sums -/

theorem rawStep_getD (n : Nat) (v : List Int) {p : Nat} (hp : p < n)
    (k : Nat) (t : List Int) (ht : t.length = n) :
    (rawStep n v t k).getD p 0 = t.getD p 0 + signedTerm n v p k := by
  unfold rawStep signedTerm
  by_cases hpos : k % n = p
  · rw [hpos]
    split
    · rw [getD_set_self t _ (by omega)]
      simp
    · rw [getD_set_self t _ (by omega)]
      simp
      omega
  · split <;> rw [getD_set_ne t _ hpos] <;> simp [hpos]

theorem rawFold_getD (n : Nat) (v : List Int) {p : Nat} (hp : p < n) :
    ∀ (k : Nat) (s : List Int), s.length = n →
      ((List.range k).foldl (rawStep n v) s).getD p 0 =
        s.getD p 0 + ∑ i in Finset.range k, signedTerm n v p i
  | 0, s, _ => by simp
  | k + 1, s, hs => by
    have hlen : ((List.range k).foldl (rawStep n v) s).length = n := by
      rw [foldl_length (rawStep_length n v) (List.range k) s, hs]
    rw [List.range_succ, List.foldl_append, List.foldl_cons, List.foldl_nil,
      Finset.sum_range_succ, rawStep_getD n v hp k _ hlen,
      rawFold_getD n v hp k s hs, add_assoc]

theorem fromVector_getD_signedSum (n m : Nat) (v : List Int) {p : Nat}
    (h : n < v.length) (hp : p < n) :
    (fromVector n m v).getD p 0 = ModularBigInt.rem m (signedSum n v p) := by
  rw [fromVector_eq_spec]
  unfold fromVectorSpec
  rw [if_neg (by omega), getD_map_rem,
    rawFold_getD n v hp v.length (List.replicate n 0)
      (List.length_replicate n 0),
    getD_replicate_zero, zero_add, signedSum]

/-! ## Shape and canonicity invariants -/

theorem fromVector_length (n m : Nat) (v : List Int) :
    (fromVector n m v).length = n := by
  simp only [fromVector, List.length_map]
  split
  · simp only [List.length_append, List.length_map, List.length_replicate]
    omega
  · rw [foldl_length (foldStep_length n m (v.map (ModularBigInt.ofBigInt m))),
      List.length_replicate]

theorem mem_map_rem (m : Nat) (l : List Int) :
    ∀ c ∈ l.map (ModularBigInt.rem m), ModularBigInt.rem m c = c := by
  intro c hc
  rcases List.mem_map.mp hc with ⟨x, _, rfl⟩
  exact rem_idem m x

theorem foldl_foldStep_canonical (n m : Nat) (c : List Int) :
    ∀ (l : List Nat) (s : List Int), (∀ x ∈ s, ModularBigInt.rem m x = x) →
      ∀ x ∈ l.foldl (foldStep n m c) s, ModularBigInt.rem m x = x
  | [], _, hs => hs
  | i :: t, s, hs => by
    rw [List.foldl_cons]
    refine foldl_foldStep_canonical n m c t _ ?_
    intro x hx
    unfold foldStep at hx
    split at hx
    · rcases List.mem_or_eq_of_mem_set hx with h | h
      · exact hs x h
      · rw [h]; exact rem_idem m _
    · rcases List.mem_or_eq_of_mem_set hx with h | h
      · exact hs x h
      · rw [h]; exact rem_idem m _

theorem fromVector_canonical (n m : Nat) (v : List Int) :
    ∀ c ∈ fromVector n m v, ModularBigInt.rem m c = c := by
  intro c hc
  simp only [fromVector, List.length_map] at hc
  split at hc
  · rcases List.mem_append.mp hc with h | h
    · exact mem_map_rem m v c h
    · rw [List.eq_of_mem_replicate h]
      exact rem_zero m
  · refine foldl_foldStep_canonical n m _ _ _ ?_ c hc
    intro x hx
    rw [List.eq_of_mem_replicate hx]
    exact rem_zero m

theorem zipWith_rem_canonical (m : Nat) (g : Int → Int → Int) :
    ∀ (a b : List Int),
      ∀ x ∈ List.zipWith (fun u w => ModularBigInt.rem m (g u w)) a b,
        ModularBigInt.rem m x = x
  | [], _, x, hx => by simp at hx
  | _ :: _, [], x, hx => by simp at hx
  | u :: us, w :: ws, x, hx => by
    rw [List.zipWith_cons_cons] at hx
    rcases List.mem_cons.mp hx with h | h
    · rw [h]; exact rem_idem m _
    · exact zipWith_rem_canonical m g us ws x h

theorem getD_zipWith (f : Int → Int → Int) (a b : List Int) (i : Nat)
    (hia : i < a.length) (hib : i < b.length) :
    (List.zipWith f a b).getD i 0 = f (a.getD i 0) (b.getD i 0) := by
  have hi : i < (List.zipWith f a b).length := by
    rw [List.length_zipWith]
    exact lt_min hia hib
  rw [List.getD_eq_getElem?_getD, List.getElem?_eq_getElem hi,
    Option.getD_some, List.getElem_zipWith,
    List.getD_eq_getElem?_getD, List.getElem?_eq_getElem hia, Option.getD_some,
    List.getD_eq_getElem?_getD, List.getElem?_eq_getElem hib, Option.getD_some]

theorem zipWith_add_zero (m : Nat) :
    ∀ (x : List Int), (∀ c ∈ x, ModularBigInt.rem m c = c) →
      List.zipWith (ModularBigInt.add m) x (List.replicate x.length 0) = x
  | [], _ => rfl
  | c :: t, h => by
    rw [List.length_cons, List.replicate_succ, List.zipWith_cons_cons,
      zipWith_add_zero m t (fun d hd => h d (List.mem_cons_of_mem c hd))]
    have hc := h c (List.mem_cons_self c t)
    have : ModularBigInt.add m c 0 = c := by
      show ModularBigInt.rem m (c + 0) = c
      rw [add_zero]
      exact hc
    rw [this]

/-! ## The claims -/

/-- Claim C1: for every raw coefficient vector `v` of length `L > n`, the
conversion into a ring element of degree `n` yields at each position `p < n`
the balanced reduction of the signed block sum (add entry `i` when
`⌊i/n⌋` is even and `i % n = p`, subtract it when `⌊i/n⌋` is odd); in
particular with `n = 4` the vector `[1,…,8]` folds to `[-4,-4,-4,-4]` under
characteristic zero and to `[3,3,3,3]` under characteristic 7. -/
theorem claim1_fold_reduction (n m : Nat) (v : List Int) (p : Nat)
    (h : n < v.length) (hp : p < n) :
    (fromVector n m v).getD p 0 = ModularBigInt.rem m (signedSum n v p) ∧
    fromVector 4 0 [1, 2, 3, 4, 5, 6, 7, 8] = [-4, -4, -4, -4] ∧
    fromVector 4 7 [1, 2, 3, 4, 5, 6, 7, 8] = [3, 3, 3, 3] :=
  ⟨fromVector_getD_signedSum n m v h hp, by decide, by decide⟩

theorem claim1_fold_reduction_witness :
    (fromVector 4 7 [1, 2, 3, 4, 5, 6, 7, 8]).getD 0 0 =
      ModularBigInt.rem 7 (signedSum 4 [1, 2, 3, 4, 5, 6, 7, 8] 0) ∧
    fromVector 4 0 [1, 2, 3, 4, 5, 6, 7, 8] = [-4, -4, -4, -4] ∧
    fromVector 4 7 [1, 2, 3, 4, 5, 6, 7, 8] = [3, 3, 3, 3] :=
  claim1_fold_reduction 4 7 [1, 2, 3, 4, 5, 6, 7, 8] 0 (by decide) (by decide)

/-- Claim C2: for every modulus `m > 0` and all integers, the reduction
applied at construction and after add, subtract and multiply produces a
representative congruent to the exact result modulo `m` lying in the window
`(⌊m/2⌋ - m, ⌊m/2⌋]`. -/
theorem claim2_balanced_residue (m : Nat) (x a b : Int) (hm : 0 < m) :
    (ModularBigInt.ofBigInt m x % (m : Int) = x % (m : Int) ∧
      (m : Int) / 2 - m < ModularBigInt.ofBigInt m x ∧
      ModularBigInt.ofBigInt m x ≤ (m : Int) / 2) ∧
    (ModularBigInt.add m a b % (m : Int) = (a + b) % (m : Int) ∧
      (m : Int) / 2 - m < ModularBigInt.add m a b ∧
      ModularBigInt.add m a b ≤ (m : Int) / 2) ∧
    (ModularBigInt.sub m a b % (m : Int) = (a - b) % (m : Int) ∧
      (m : Int) / 2 - m < ModularBigInt.sub m a b ∧
      ModularBigInt.sub m a b ≤ (m : Int) / 2) ∧
    (ModularBigInt.mul m a b % (m : Int) = (a * b) % (m : Int) ∧
      (m : Int) / 2 - m < ModularBigInt.mul m a b ∧
      ModularBigInt.mul m a b ≤ (m : Int) / 2) :=
  ⟨⟨rem_congr m x, (rem_range hm x).1, (rem_range hm x).2⟩,
   ⟨rem_congr m (a + b), (rem_range hm (a + b)).1, (rem_range hm (a + b)).2⟩,
   ⟨rem_congr m (a - b), (rem_range hm (a - b)).1, (rem_range hm (a - b)).2⟩,
   ⟨rem_congr m (a * b), (rem_range hm (a * b)).1, (rem_range hm (a * b)).2⟩⟩

theorem claim2_balanced_residue_witness :
    (ModularBigInt.ofBigInt 2 5 % (2 : Int) = 5 % (2 : Int) ∧
      (2 : Int) / 2 - 2 < ModularBigInt.ofBigInt 2 5 ∧
      ModularBigInt.ofBigInt 2 5 ≤ (2 : Int) / 2) ∧
    (ModularBigInt.add 2 3 (-4) % (2 : Int) = (3 + (-4)) % (2 : Int) ∧
      (2 : Int) / 2 - 2 < ModularBigInt.add 2 3 (-4) ∧
      ModularBigInt.add 2 3 (-4) ≤ (2 : Int) / 2) ∧
    (ModularBigInt.sub 2 3 (-4) % (2 : Int) = (3 - (-4)) % (2 : Int) ∧
      (2 : Int) / 2 - 2 < ModularBigInt.sub 2 3 (-4) ∧
      ModularBigInt.sub 2 3 (-4) ≤ (2 : Int) / 2) ∧
    (ModularBigInt.mul 2 3 (-4) % (2 : Int) = (3 * (-4)) % (2 : Int) ∧
      (2 : Int) / 2 - 2 < ModularBigInt.mul 2 3 (-4) ∧
      ModularBigInt.mul 2 3 (-4) ≤ (2 : Int) / 2) :=
  claim2_balanced_residue 2 5 3 (-4) (by decide)

/-- Claim C3 (counterexample): the implemented fold does NOT gather raw
signed integer sums with a single final reduction; the conversion reduces
each entry and `AddAssign` reduces after each individual addition.  After the
very first addition of the fold of `[5, 1]` into degree 1 with modulus 7 the
accumulator already holds the reduced value `-2`, while the raw signed
partial sum at that point is `5`. -/
theorem claim3_eager_reduction_cex :
    foldStep 1 7 (List.map (ModularBigInt.ofBigInt 7) [5, 1]) [0] 0 = [-2] ∧
    rawStep 1 [5, 1] [0] 0 = [5] ∧
    ModularBigInt.add 7 0 (ModularBigInt.ofBigInt 7 5) ≠ 0 + 5 := by
  decide

/-- Claim C3 (amended): although the implemented fold reduces after each
individual addition and at each entry conversion, it produces exactly the
same element as the spec's reference fold that accumulates unreduced integer
sums and canonicalizes once at the end of each accumulation. -/
theorem claim3_deferred_reduction_equiv (n m : Nat) (v : List Int)
    (_h : 0 < n) :
    fromVector n m v = fromVectorSpec n m v :=
  fromVector_eq_spec n m v

theorem claim3_deferred_reduction_equiv_witness :
    fromVector 2 7 [1, 2, 3, 4, 5] = fromVectorSpec 2 7 [1, 2, 3, 4, 5] :=
  claim3_deferred_reduction_equiv 2 7 [1, 2, 3, 4, 5] (by decide)

/-- Claim C4: for every raw coefficient vector of length `L ≤ n`, the
converted element's coefficient `i` is the Balanced Modular Integer built
from the vector's entry `i` for `i < L`, and zero for `L ≤ i < n`
(right-padding with zero). -/
theorem claim4_padding (n m : Nat) (v : List Int) (i : Nat)
    (hL : v.length ≤ n) :
    (i < v.length → (fromVector n m v).getD i 0 =
        ModularBigInt.ofBigInt m (v.getD i 0)) ∧
    (v.length ≤ i → i < n → (fromVector n m v).getD i 0 = 0) := by
  simp only [fromVector, List.length_map]
  rw [if_pos hL]
  constructor
  · intro hi
    rw [List.getD_append _ _ _ i (by simpa using hi)]
    exact getD_map_rem m v i
  · intro h1 _h2
    rw [List.getD_append_right _ _ _ i (by simpa using h1)]
    exact getD_replicate_zero _ _

theorem claim4_padding_witness :
    (0 < ([6, -6] : List Int).length → (fromVector 4 7 [6, -6]).getD 0 0 =
        ModularBigInt.ofBigInt 7 (([6, -6] : List Int).getD 0 0)) ∧
    (([6, -6] : List Int).length ≤ 0 → 0 < 4 →
        (fromVector 4 7 [6, -6]).getD 0 0 = 0) :=
  claim4_padding 4 7 [6, -6] 0 (by decide)

/-- Claim C5: under the zero characteristic the stored representative equals
the input unchanged, and add, subtract and multiply compute the exact integer
result with no reduction. -/
theorem claim5_char_zero_exact (x a b : Int) :
    ModularBigInt.ofBigInt 0 x = x ∧ ModularBigInt.add 0 a b = a + b ∧
    ModularBigInt.sub 0 a b = a - b ∧ ModularBigInt.mul 0 a b = a * b :=
  ⟨rfl, rfl, rfl, rfl⟩

/-- Claim C6: ring multiplication on the cyclotomic ring is `todo!()`, an
unconditional panic: modelled as an `Option`, every call returns `none` and
never a partial or garbage result. -/
theorem claim6_mul_unconditional_failure (a b : List Int) :
    Cyclotomic.mul a b = none :=
  rfl

/-- Claim C7: every element produced by conversion from a vector, by add, or
by hadamard has exactly `n` coefficients, and each coefficient is the
canonical balanced representative (a fixed point of the reduction) for the
ring's characteristic. -/
theorem claim7_element_invariants (n m : Nat) (v a b : List Int)
    (ha : a.length = n) (hb : b.length = n) :
    ((fromVector n m v).length = n ∧
      ∀ c ∈ fromVector n m v, ModularBigInt.rem m c = c) ∧
    ((Element.add m a b).length = n ∧
      ∀ c ∈ Element.add m a b, ModularBigInt.rem m c = c) ∧
    ((Element.hadamard m a b).length = n ∧
      ∀ c ∈ Element.hadamard m a b, ModularBigInt.rem m c = c) := by
  refine ⟨⟨fromVector_length n m v, fromVector_canonical n m v⟩,
    ⟨?_, zipWith_rem_canonical m (fun u w => u + w) a b⟩,
    ⟨?_, zipWith_rem_canonical m (fun u w => u * w) a b⟩⟩
  · rw [Element.add, List.length_zipWith, ha, hb]
    exact min_self n
  · rw [Element.hadamard, List.length_zipWith, ha, hb]
    exact min_self n

theorem claim7_element_invariants_witness :
    ((fromVector 2 7 [1, 2, 3]).length = 2 ∧
      ∀ c ∈ fromVector 2 7 [1, 2, 3], ModularBigInt.rem 7 c = c) ∧
    ((Element.add 7 [1, 2] [3, -3]).length = 2 ∧
      ∀ c ∈ Element.add 7 [1, 2] [3, -3], ModularBigInt.rem 7 c = c) ∧
    ((Element.hadamard 7 [1, 2] [3, -3]).length = 2 ∧
      ∀ c ∈ Element.hadamard 7 [1, 2] [3, -3], ModularBigInt.rem 7 c = c) :=
  claim7_element_invariants 2 7 [1, 2, 3] [1, 2] [3, -3] (by decide) (by decide)

/-- Claim C8: add is coefficient-wise Balanced Modular Integer addition, is
commutative, has the all-zero element as identity, and `add(x, x)` doubles
every coefficient modulo the ring's characteristic. -/
theorem claim8_add_laws (n m : Nat) (a b x : List Int)
    (ha : a.length = n) (hb : b.length = n) (hx : x.length = n)
    (hxc : ∀ c ∈ x, ModularBigInt.rem m c = c) :
    (∀ i, i < n → (Element.add m a b).getD i 0 =
        ModularBigInt.add m (a.getD i 0) (b.getD i 0)) ∧
    Element.add m a b = Element.add m b a ∧
    Element.add m x (List.replicate n 0) = x ∧
    Element.add m x x = x.map (fun c => ModularBigInt.rem m (2 * c)) := by
  refine ⟨?_, ?_, ?_, ?_⟩
  · intro i hi
    exact getD_zipWith _ a b i (by omega) (by omega)
  · refine List.zipWith_comm_of_comm _ (fun u w => ?_) a b
    show ModularBigInt.rem m (u + w) = ModularBigInt.rem m (w + u)
    rw [add_comm]
  · subst hx
    exact zipWith_add_zero m x hxc
  · rw [Element.add, List.zipWith_same]
    have he : (fun c => ModularBigInt.add m c c) =
        fun c : Int => ModularBigInt.rem m (2 * c) := by
      funext c
      show ModularBigInt.rem m (c + c) = ModularBigInt.rem m (2 * c)
      rw [two_mul]
    rw [he]

theorem claim8_add_laws_witness :
    (∀ i, i < 2 → (Element.add 7 [1, 2] [3, -3]).getD i 0 =
        ModularBigInt.add 7 (([1, 2] : List Int).getD i 0)
          (([3, -3] : List Int).getD i 0)) ∧
    Element.add 7 [1, 2] [3, -3] = Element.add 7 [3, -3] [1, 2] ∧
    Element.add 7 [2, 3] (List.replicate 2 0) = [2, 3] ∧
    Element.add 7 [2, 3] [2, 3] =
      List.map (fun c => ModularBigInt.rem 7 (2 * c)) [2, 3] :=
  claim8_add_laws 2 7 [1, 2] [3, -3] [2, 3] (by decide) (by decide)
    (by decide) (by decide)

/-- Claim C9: hadamard is coefficient-wise Balanced Modular Integer
multiplication (not the ring product), is commutative, and `hadamard(x, x)`
squares every coefficient. -/
theorem claim9_hadamard_laws (n m : Nat) (a b x : List Int)
    (ha : a.length = n) (hb : b.length = n) :
    (∀ i, i < n → (Element.hadamard m a b).getD i 0 =
        ModularBigInt.mul m (a.getD i 0) (b.getD i 0)) ∧
    Element.hadamard m a b = Element.hadamard m b a ∧
    Element.hadamard m x x = x.map (fun c => ModularBigInt.mul m c c) := by
  refine ⟨?_, ?_, ?_⟩
  · intro i hi
    exact getD_zipWith _ a b i (by omega) (by omega)
  · refine List.zipWith_comm_of_comm _ (fun u w => ?_) a b
    show ModularBigInt.rem m (u * w) = ModularBigInt.rem m (w * u)
    rw [mul_comm]
  · exact List.zipWith_same (ModularBigInt.mul m) x

theorem claim9_hadamard_laws_witness :
    (∀ i, i < 2 → (Element.hadamard 7 [1, 2] [3, -3]).getD i 0 =
        ModularBigInt.mul 7 (([1, 2] : List Int).getD i 0)
          (([3, -3] : List Int).getD i 0)) ∧
    Element.hadamard 7 [1, 2] [3, -3] = Element.hadamard 7 [3, -3] [1, 2] ∧
    Element.hadamard 7 [2, 3] [2, 3] =
      List.map (fun c => ModularBigInt.mul 7 c c) [2, 3] :=
  claim9_hadamard_laws 2 7 [1, 2] [3, -3] [2, 3] (by decide) (by decide)

/-- Claim C10: reading back coefficient `i` of an element of degree `n`
returns coefficient `i` when `i < n` and fails (the out-of-bounds index
panic, modelled as `none`) for every `i ≥ n`. -/
theorem claim10_at_bounds (n : Nat) (e : List Int) (i : Nat)
    (he : e.length = n) :
    (i < n → Element.atIndex e i = some (e.getD i 0)) ∧
    (n ≤ i → Element.atIndex e i = none) := by
  constructor
  · intro hi
    rw [Element.atIndex, List.getElem?_eq_getElem (by omega),
      List.getD_eq_getElem?_getD, List.getElem?_eq_getElem (by omega),
      Option.getD_some]
  · intro hi
    rw [Element.atIndex]
    exact List.getElem?_eq_none (by omega)

theorem claim10_at_bounds_witness :
    (1 < 2 → Element.atIndex [4, 5] 1 = some (([4, 5] : List Int).getD 1 0)) ∧
    (2 ≤ 1 → Element.atIndex [4, 5] 1 = none) :=
  claim10_at_bounds 2 [4, 5] 1 (by decide)

end Rlwe
